import Mathlib

/-!
Shallow embedding of the postings-writer subsystem of the inverted-index
builder (src/src/postings/postings_writer.rs), together with theorems about
its behaviour.

Conventions of the embedding:
* byte strings (term keys, token texts) are values of type `List Nat`;
* document ids, positions and term ids are `Nat`;
* the arena-resident per-term `Recorder` payload and the serialization sink
  are collaborators whose code is not part of this subsystem; they are
  modelled from the specification (see the doc comments of `Recorder` and
  `SinkEvent`);
* the term hash map is modelled as an insertion-ordered association list;
  a term's `UnorderedTermId` is its index in that list, matching the dense
  first-seen numbering of the real map.
-/

namespace PostingsWriter

/-- POSITION_GAP constant from postings_writer.rs (line 21). -/
def POSITION_GAP : Nat := 1

/-- Byte-lexicographic strict order on byte strings, as produced by the Rust
derived Ord on byte slices: a proper shorter string precedes every string it
is a proper first part of. -/
def bytesLt : List Nat → List Nat → Bool
  | _, [] => false
  | [], _ :: _ => true
  | a :: as, b :: bs => if a < b then true else if b < a then false else bytesLt as bs

/-- Byte-lexicographic (non-strict) order on byte strings. -/
def bytesLe : List Nat → List Nat → Bool
  | [], _ => true
  | _ :: _, [] => false
  | a :: as, b :: bs => if a < b then true else if b < a then false else bytesLe as bs

theorem bytesLe_refl (a : List Nat) : bytesLe a a = true := by
  induction a with
  | nil => rfl
  | cons x xs ih => simp [bytesLe, ih]

theorem bytesLe_total (a b : List Nat) : bytesLe a b = true ∨ bytesLe b a = true := by
  induction a generalizing b with
  | nil => exact Or.inl rfl
  | cons x xs ih =>
    cases b with
    | nil => exact Or.inr rfl
    | cons y ys =>
      rcases Nat.lt_trichotomy x y with h | h | h
      · exact Or.inl (by simp [bytesLe, h])
      · subst h
        rcases ih ys with h2 | h2
        · exact Or.inl (by simp [bytesLe, h2])
        · exact Or.inr (by simp [bytesLe, h2])
      · exact Or.inr (by simp [bytesLe, h])

theorem bytesLe_trans {a b c : List Nat} (hab : bytesLe a b = true)
    (hbc : bytesLe b c = true) : bytesLe a c = true := by
  induction a generalizing b c with
  | nil => rfl
  | cons x xs ih =>
    cases b with
    | nil => simp [bytesLe] at hab
    | cons y ys =>
      cases c with
      | nil => simp [bytesLe] at hbc
      | cons z zs =>
        rcases Nat.lt_trichotomy x y with hxy | hxy | hxy
        · rcases Nat.lt_trichotomy y z with hyz | hyz | hyz
          · simp [bytesLe, Nat.lt_trans hxy hyz]
          · subst hyz; simp [bytesLe, hxy]
          · simp [bytesLe, hyz, Nat.lt_asymm hyz] at hbc
        · subst hxy
          rcases Nat.lt_trichotomy x z with hyz | hyz | hyz
          · simp [bytesLe, hyz]
          · subst hyz
            simp [bytesLe, Nat.lt_irrefl] at hab hbc ⊢
            exact ih hab hbc
          · simp [bytesLe, hyz, Nat.lt_asymm hyz] at hbc
        · simp [bytesLe, hxy, Nat.lt_asymm hxy] at hab

theorem bytesLe_antisymm {a b : List Nat} (hab : bytesLe a b = true)
    (hba : bytesLe b a = true) : a = b := by
  induction a generalizing b with
  | nil =>
    cases b with
    | nil => rfl
    | cons y ys => simp [bytesLe] at hba
  | cons x xs ih =>
    cases b with
    | nil => simp [bytesLe] at hab
    | cons y ys =>
      rcases Nat.lt_trichotomy x y with hxy | hxy | hxy
      · simp [bytesLe, hxy, Nat.lt_asymm hxy] at hba
      · subst hxy
        simp [bytesLe, Nat.lt_irrefl] at hab hba
        rw [ih hab hba]
      · simp [bytesLe, hxy, Nat.lt_asymm hxy] at hab

theorem bytesLt_iff_le_ne {a b : List Nat} :
    bytesLt a b = true ↔ (bytesLe a b = true ∧ a ≠ b) := by
  induction a generalizing b with
  | nil =>
    cases b with
    | nil => simp [bytesLt, bytesLe]
    | cons y ys => simp [bytesLt, bytesLe]
  | cons x xs ih =>
    cases b with
    | nil => simp [bytesLt, bytesLe]
    | cons y ys =>
      rcases Nat.lt_trichotomy x y with hxy | hxy | hxy
      · simp [bytesLt, bytesLe, hxy, Nat.ne_of_lt hxy]
      · subst hxy
        simp only [bytesLt, bytesLe, Nat.lt_irrefl, if_false]
        rw [ih]
        simp
      · simp [bytesLt, bytesLe, hxy, Nat.lt_asymm hxy]

/-- Token handed to index_text by the token stream: byte text, start offset
inside the call (the token.position field), and span length
(token.position_length). Mirrors the fields of crate::tokenizer::Token read
by postings_writer.rs. -/
structure Token where
  text : List Nat
  position : Nat
  position_length : Nat
deriving DecidableEq, Repr

/-- IndexingPosition struct (postings_writer.rs lines 73-77). -/
structure IndexingPosition where
  num_tokens : Nat
  end_position : Nat
deriving DecidableEq, Repr

/-- Modelled from the spec: the per-term Recorder state machine of
crate::postings::recorder (recorder.rs is not part of src/). Specification
4.3: state is a current open document cursor, a position accumulator for
that document, and the stream of finalized per-document entries; this is
the position-tracking capability variant. A finalized entry is
(doc id, position list). -/
structure Recorder where
  doc_cursor : Option Nat
  current_positions : List Nat
  finalized : List (Nat × List Nat)
deriving DecidableEq, Repr

namespace Recorder

/-- Modelled from the spec: Recorder::default starts Unopened with no
finalized entries. -/
def init : Recorder := ⟨none, [], []⟩

/-- Modelled from the spec: current_doc returns the open document id, or
none when Closed/Unopened. -/
def current_doc (r : Recorder) : Option Nat := r.doc_cursor

/-- Modelled from the spec: new_doc opens a document and resets the
position accumulator. -/
def new_doc (doc : Nat) (r : Recorder) : Recorder :=
  { r with doc_cursor := some doc, current_positions := [] }

/-- Modelled from the spec: record_position appends a position to the open
document's accumulator. -/
def record_position (pos : Nat) (r : Recorder) : Recorder :=
  { r with current_positions := r.current_positions ++ [pos] }

/-- Modelled from the spec: close_doc finalizes the currently open document,
emitting one finalized entry and transitioning to Closed; from a state with
no open document it has nothing to finalize. -/
def close_doc (r : Recorder) : Recorder :=
  match r.doc_cursor with
  | some d => ⟨none, [], r.finalized ++ [(d, r.current_positions)]⟩
  | none => r

/-- Modelled from the spec: term_doc_freq is the count of finalized entries
so far. -/
def term_doc_freq (r : Recorder) : Nat := r.finalized.length

/-- Modelled from the spec: the entries streamed out at serialization time
are the finalized per-document entries once no further documents will be
added, i.e. after the still-open document (if any) has been finalized
(specification 4.3: term_doc_freq is the document frequency once no further
documents will be added; 4.5 step 5 streams the finalized per-document
entries). -/
def entriesAtSerialize (r : Recorder) : List (Nat × List Nat) :=
  r.close_doc.finalized

/-- Document frequency reported at serialization time
(SpecializedPostingsWriter::serialize_one_term, postings_writer.rs line
186, reading term_doc_freq of the recorder at serialization time). -/
def docFreqAtSerialize (r : Recorder) : Nat :=
  r.close_doc.term_doc_freq

end Recorder

/-- Update closure passed by SpecializedPostingsWriter::subscribe to
mutate_or_create (postings_writer.rs lines 217-232): an existing recorder
whose current document differs from doc is closed and reopened on doc, then
the position is recorded; a fresh recorder opens doc and records the
position. -/
def updateRecorder (doc pos : Nat) : Option Recorder → Recorder
  | some recorder =>
    let recorder :=
      if recorder.current_doc ≠ some doc then
        (recorder.close_doc).new_doc doc
      else recorder
    recorder.record_position pos
  | none => ((Recorder.init).new_doc doc).record_position pos

/-- Term hash map, modelled as an insertion-ordered association list from
term key bytes to the recorder payload; the UnorderedTermId of an entry is
its index in the list (the dense first-seen numbering of
stacker::TermHashMap). -/
abbrev TermMap : Type := List (List Nat × Recorder)

/-- TermHashMap::mutate_or_create for the recorder update closure of
subscribe: if the key is present its recorder is updated in place, else a
new entry is appended with the next dense id; returns the entry's
UnorderedTermId and the new map. -/
def mutateOrCreate (key : List Nat) (doc pos : Nat) : TermMap → Nat × TermMap
  | [] => (0, [(key, updateRecorder doc pos none)])
  | (k, r) :: rest =>
    if k = key then (0, (k, updateRecorder doc pos (some r)) :: rest)
    else
      let step := mutateOrCreate key doc pos rest
      (step.1 + 1, (k, r) :: step.2)

/-- Association-list lookup of a term's recorder in the term map. -/
def lookupRec (key : List Nat) : TermMap → Option Recorder
  | [] => none
  | (k, r) :: rest => if k = key then some r else lookupRec key rest

/-- SpecializedPostingsWriter state: total_num_tokens counter and the term
map (postings_writer.rs lines 160-164). -/
structure WriterState where
  total_num_tokens : Nat
  term_map : TermMap
deriving DecidableEq

/-- Empty writer, as produced by Default. -/
def WriterState.init : WriterState := ⟨0, []⟩

/-- SpecializedPostingsWriter::subscribe (postings_writer.rs lines 203-234):
increments total_num_tokens, runs mutate_or_create with the recorder update
closure, and returns the bucket's UnorderedTermId together with the new
writer state. -/
def subscribe (w : WriterState) (doc pos : Nat) (term : List Nat) :
    Nat × WriterState :=
  let step := mutateOrCreate term doc pos w.term_map
  (step.1, ⟨w.total_num_tokens + 1, step.2⟩)

/-- One subscribe call as issued by the external indexer: document id,
position and term key. -/
structure SubCall where
  doc : Nat
  pos : Nat
  term : List Nat
deriving DecidableEq

/-- Effect of a sequence of subscribe calls on a writer. -/
def processCalls (w : WriterState) (calls : List SubCall) : WriterState :=
  calls.foldl (fun st c => (subscribe st c.doc c.pos c.term).2) w

/-- State threaded through the token-processing closure of index_text
(postings_writer.rs lines 124-147): the writer being mutated, the optional
multi-valued fast-field sink contents (the UnorderedTermIds appended by
add_val), the local num_tokens and end_position accumulators, and the
observable trace of (start_position, end_position) argument pairs of the
subscribe calls made so far in this index_text call. -/
structure IndexTextAcc where
  writer : WriterState
  sink : List Nat
  trace : List (Nat × Nat)
  num_tokens : Nat
  end_position : Nat
deriving DecidableEq

/-- Body of the index_text token closure (postings_writer.rs lines 126-147)
for one token: oversized tokens (byte length above maxTokenLen) are dropped;
otherwise the term buffer is rebuilt as field path ++ token text, positions
are computed from the end_position the IndexingPosition held at the start of
the call (ipStart), subscribe is called and its id appended to the sink.
MAX_TOKEN_LEN is a constant of the tokenizer crate (not part of src/), so
the maximum token length is a parameter here. -/
def processToken (maxTokenLen doc : Nat) (path : List Nat) (ipStart : Nat)
    (st : IndexTextAcc) (token : Token) : IndexTextAcc :=
  if token.text.length > maxTokenLen then st
  else
    let term_key := path ++ token.text
    let start_position := ipStart + token.position
    let end_position := start_position + token.position_length
    let sub := subscribe st.writer doc start_position term_key
    { writer := sub.2
      sink := st.sink ++ [sub.1]
      trace := st.trace ++ [(start_position, end_position)]
      num_tokens := st.num_tokens + 1
      end_position := end_position }

/-- Result of one index_text call: the new writer, the sink contents, the
updated IndexingPosition and the trace of subscribe position arguments. -/
structure IndexTextResult where
  writer : WriterState
  sink : List Nat
  ipos : IndexingPosition
  trace : List (Nat × Nat)
deriving DecidableEq

/-- PostingsWriter::index_text (postings_writer.rs lines 114-152): processes
every token of the stream through the closure, then sets the caller's
IndexingPosition end_position to the local end_position (0 if no token was
recorded) plus POSITION_GAP and adds the recorded-token count to
num_tokens. path is the field-path content of the term buffer up to
end_of_path_idx. -/
def indexText (maxTokenLen doc : Nat) (path : List Nat) (w : WriterState)
    (sink : List Nat) (ip : IndexingPosition) (tokens : List Token) :
    IndexTextResult :=
  let acc := tokens.foldl (processToken maxTokenLen doc path ip.end_position)
    ⟨w, sink, [], 0, 0⟩
  { writer := acc.writer
    sink := acc.sink
    ipos := ⟨ip.num_tokens + acc.num_tokens, acc.end_position + POSITION_GAP⟩
    trace := acc.trace }

/-- FieldType constructors matched by serialize_postings (postings_writer.rs
lines 46-62). -/
inductive FieldType
  | Str
  | Facet
  | U64
  | I64
  | F64
  | Date
  | Bytes
  | JsonObject
deriving DecidableEq, Repr

/-- One (term key, recorder payload, UnorderedTermId) triple of the
term_offsets vector built by serialize_postings (postings_writer.rs lines
40-42); the Addr payload slot holds the recorder it points to. -/
structure TermOffset where
  term : List Nat
  recorder : Recorder
  id : Nat
deriving DecidableEq

/-- Comparison used by the sort_unstable_by_key call on term_offsets
(postings_writer.rs line 43): byte-lexicographic order of the term key. -/
def offsetLe (a b : TermOffset) : Prop := bytesLe a.term b.term = true

instance : DecidableRel offsetLe := fun a b => by
  unfold offsetLe
  infer_instance

instance : IsTotal TermOffset offsetLe :=
  ⟨fun a b => bytesLe_total a.term b.term⟩

instance : IsTrans TermOffset offsetLe :=
  ⟨fun _ _ _ => bytesLe_trans⟩

/-- Contents of term_offsets before the sort: TermHashMap::iter yields every
entry with its key and dense UnorderedTermId (here: the entry's insertion
index). -/
def termOffsets (w : WriterState) : List TermOffset :=
  w.term_map.enum.map (fun p => ⟨p.2.1, p.2.2, p.1⟩)

/-- Contents of term_offsets after sort_unstable_by_key (postings_writer.rs
line 43). -/
def sortedOffsets (w : WriterState) : List TermOffset :=
  List.insertionSort offsetLe (termOffsets w)

/-- Mapping from UnorderedTermId to TermOrdinal built for string-like fields
(postings_writer.rs lines 50-56): each sorted-rank index is paired with the
id found at that rank. -/
def mappingList (w : WriterState) : List (Nat × Nat) :=
  (sortedOffsets w).enum.map (fun p => (p.2.id, p.1))

/-- Association-list lookup with Nat keys (the FnvHashMap / HashMap reads). -/
def alookup {α : Type} (k : Nat) : List (Nat × α) → Option α
  | [] => none
  | (k2, v) :: rest => if k2 = k then some v else alookup k rest

/-- Modelled from the spec: the operations of the per-field serialization
sink (InvertedIndexSerializer / FieldSerializer, not part of src/):
opening a field with the total-token count, opening a term entry with its
document frequency, appending the finalized postings of a term, closing a
term and closing the field — all fallible per specification 6. -/
inductive SinkEvent
  | newField (field : Nat) (totalTokens : Nat)
  | newTerm (key : List Nat) (docFreq : Nat)
  | postings (entries : List (Nat × List Nat))
  | closeTerm
  | closeField
deriving DecidableEq

/-- Document-id remapping applied at flush time when supplied
(doc_id_map); absent means identity. -/
def applyDocIdMap (dmap : Option (Nat → Nat)) (doc : Nat) : Nat :=
  match dmap with
  | some f => f doc
  | none => doc

/-- Sink events of SpecializedPostingsWriter::serialize_one_term
(postings_writer.rs lines 176-191): new_term with the document frequency the
recorder reports at serialization time, the streamed finalized entries (with
the doc-id remap applied), close_term. -/
def termEvents (dmap : Option (Nat → Nat)) (t : TermOffset) : List SinkEvent :=
  [SinkEvent.newTerm t.term t.recorder.docFreqAtSerialize,
   SinkEvent.postings (t.recorder.entriesAtSerialize.map
     (fun e => (applyDocIdMap dmap e.1, e.2))),
   SinkEvent.closeTerm]

/-- All sink events of one field's flush, in issue order: new_field
(postings_writer.rs line 66), the per-term events in sorted term order
(lines 236-256), close (line 68). -/
def fieldEvents (dmap : Option (Nat → Nat)) (field : Nat) (w : WriterState) :
    List SinkEvent :=
  SinkEvent.newField field w.total_num_tokens ::
    ((sortedOffsets w).map (termEvents dmap)).flatten ++ [SinkEvent.closeField]

/-- Failure oracle of the modelled sink: decides, from the events emitted so
far and the event being emitted, whether this sink operation returns an I/O
error. -/
def SinkOracle : Type := List SinkEvent → SinkEvent → Bool

/-- Emission of a list of sink events with error propagation: each event is
emitted in turn onto the trace; the first failing operation stops emission
(its event is not appended) and reports failure, mirroring the question-mark
propagation in the Rust code. -/
def emitEvents (fails : SinkOracle) : List SinkEvent → List SinkEvent →
    List SinkEvent × Bool
  | [], tr => (tr, true)
  | e :: rest, tr =>
    if fails tr e then (tr, false) else emitEvents fails rest (tr ++ [e])

/-- Per-field schema information consumed by serialize_postings: the field,
its declared type and its postings writer. -/
structure FieldInfo where
  field : Nat
  ftype : FieldType
  writer : WriterState

/-- Per-field step of serialize_postings on the unordered_term_mappings
accumulator (postings_writer.rs lines 46-62): string-like types insert the
field's mapping, the other types do nothing. -/
def mappingAction (f : FieldInfo) (maps : List (Nat × List (Nat × Nat))) :
    List (Nat × List (Nat × Nat)) :=
  match f.ftype with
  | FieldType.Str | FieldType.Facet => maps ++ [(f.field, mappingList f.writer)]
  | FieldType.U64 | FieldType.I64 | FieldType.F64 | FieldType.Date => maps
  | FieldType.Bytes => maps
  | FieldType.JsonObject => maps

/-- Field loop of serialize_postings (postings_writer.rs lines 37-69): for
each field in schema order, update the mapping accumulator, then emit the
field's sink events; a sink failure aborts the whole call immediately,
returning the trace written so far and no mapping (the error return). -/
def serializeFieldsLoop (fails : SinkOracle) (dmap : Option (Nat → Nat)) :
    List FieldInfo → List SinkEvent → List (Nat × List (Nat × Nat)) →
    List SinkEvent × Option (List (Nat × List (Nat × Nat)))
  | [], tr, maps => (tr, some maps)
  | f :: rest, tr, maps =>
    let maps2 := mappingAction f maps
    let em := emitEvents fails (fieldEvents dmap f.field f.writer) tr
    if em.2 then serializeFieldsLoop fails dmap rest em.1 maps2
    else (em.1, none)

/-- serialize_postings (postings_writer.rs lines 26-71): runs the field loop
from an empty trace and empty mapping accumulator; on success the
unordered_term_mappings are returned. -/
def serializePostings (fails : SinkOracle) (dmap : Option (Nat → Nat))
    (fields : List FieldInfo) :
    List SinkEvent × Option (List (Nat × List (Nat × Nat))) :=
  serializeFieldsLoop fails dmap fields [] []

/-! Helper lemmas about the index_text token loop. -/

/-- Folding a function over a list equals folding over its filtered list
when the function ignores the filtered-out elements. -/
theorem foldl_filter_of_id {α β : Type} (f : β → α → β) (p : α → Bool)
    (h : ∀ b a, p a = false → f b a = b) :
    ∀ (l : List α) (b : β), List.foldl f b (l.filter p) = List.foldl f b l := by
  intro l
  induction l with
  | nil => intro b; rfl
  | cons x xs ih =>
    intro b
    by_cases hx : p x = true
    · simp [List.filter, hx, ih]
    · rw [Bool.not_eq_true] at hx
      simp [List.filter, hx, ih, h b x hx]

/-- Keep condition of the token closure: the token is recorded iff its byte
length does not exceed the maximum. -/
def tokenKept (maxTokenLen : Nat) (t : Token) : Bool :=
  decide (t.text.length ≤ maxTokenLen)

theorem processToken_dropped (maxTokenLen doc : Nat) (path : List Nat)
    (ipStart : Nat) (st : IndexTextAcc) (t : Token)
    (h : tokenKept maxTokenLen t = false) :
    processToken maxTokenLen doc path ipStart st t = st := by
  have hgt : t.text.length > maxTokenLen := by
    simpa [tokenKept, Nat.lt_iff_add_one_le] using h
  simp [processToken, hgt]

/-- Position pair a recorded token contributes, as a function of the
end_position the IndexingPosition held at the start of the call. -/
def tokenSpan (ipStart : Nat) (t : Token) : Nat × Nat :=
  (ipStart + t.position, ipStart + t.position + t.position_length)

/-- Behaviour of the token loop on a list of tokens that are all recorded:
the trace extends by each token's position pair, num_tokens by the token
count, end_position becomes the last token's end position, and
total_num_tokens grows by the token count. -/
theorem foldl_processToken_kept (maxTokenLen doc : Nat) (path : List Nat)
    (ipStart : Nat) :
    ∀ (tokens : List Token) (acc : IndexTextAcc),
      (∀ t ∈ tokens, tokenKept maxTokenLen t = true) →
      (List.foldl (processToken maxTokenLen doc path ipStart) acc tokens).trace
          = acc.trace ++ tokens.map (tokenSpan ipStart) ∧
      (List.foldl (processToken maxTokenLen doc path ipStart) acc tokens).num_tokens
          = acc.num_tokens + tokens.length ∧
      (List.foldl (processToken maxTokenLen doc path ipStart) acc tokens).end_position
          = (tokens.map (fun t => (tokenSpan ipStart t).2)).getLastD acc.end_position ∧
      (List.foldl (processToken maxTokenLen doc path ipStart) acc tokens).writer.total_num_tokens
          = acc.writer.total_num_tokens + tokens.length := by
  intro tokens
  induction tokens with
  | nil => intro acc _; simp
  | cons t ts ih =>
    intro acc hkept
    have ht : tokenKept maxTokenLen t = true := hkept t (by simp)
    have hle : ¬ (t.text.length > maxTokenLen) := by
      simpa [tokenKept, Nat.not_lt] using ht
    have hstep : processToken maxTokenLen doc path ipStart acc t =
        { writer := (subscribe acc.writer doc (ipStart + t.position)
            (path ++ t.text)).2
          sink := acc.sink ++ [(subscribe acc.writer doc (ipStart + t.position)
            (path ++ t.text)).1]
          trace := acc.trace ++ [tokenSpan ipStart t]
          num_tokens := acc.num_tokens + 1
          end_position := (tokenSpan ipStart t).2 } := by
      simp [processToken, hle, tokenSpan]
    have hrest := ih (processToken maxTokenLen doc path ipStart acc t)
      (fun x hx => hkept x (by simp [hx]))
    obtain ⟨h1, h2, h3, h4⟩ := hrest
    refine ⟨?_, ?_, ?_, ?_⟩
    · rw [List.foldl_cons, h1, hstep]
      simp
    · rw [List.foldl_cons, h2, hstep]
      simp [Nat.add_assoc, Nat.add_comm 1]
    · rw [List.foldl_cons, h3, hstep]
      simp only [List.map_cons, List.getLastD_cons]
    · rw [List.foldl_cons, h4, hstep]
      simp [subscribe, Nat.add_assoc, Nat.add_comm 1]

/-- Processing a token list is the same as processing only its recorded
tokens. -/
theorem indexText_filter (maxTokenLen doc : Nat) (path : List Nat)
    (w : WriterState) (sink : List Nat) (ip : IndexingPosition)
    (tokens : List Token) :
    indexText maxTokenLen doc path w sink ip tokens
      = indexText maxTokenLen doc path w sink ip
          (tokens.filter (tokenKept maxTokenLen)) := by
  unfold indexText
  rw [foldl_filter_of_id _ _ (fun b a ha => processToken_dropped _ _ _ _ b a ha)]

theorem getLastD_map_ne_nil {α β : Type} (f : α → β) :
    ∀ (l : List α) (h : l ≠ []) (d : β), (l.map f).getLastD d = f (l.getLast h) := by
  intro l
  induction l with
  | nil => intro h; exact absurd rfl h
  | cons x xs ih =>
    intro h d
    cases xs with
    | nil => simp
    | cons y ys =>
      rw [List.map_cons, List.getLastD_cons, ih (by simp) (f x)]
      simp [List.getLast_cons]

theorem processCalls_total (calls : List SubCall) :
    ∀ w : WriterState,
      (processCalls w calls).total_num_tokens = w.total_num_tokens + calls.length := by
  induction calls with
  | nil => intro w; simp [processCalls]
  | cons c cs ih =>
    intro w
    have : processCalls w (c :: cs) = processCalls (subscribe w c.doc c.pos c.term).2 cs := rfl
    rw [this, ih]
    simp [subscribe, Nat.add_assoc, Nat.add_comm 1]

/-! Concrete example inputs used by witnesses and counterexamples. -/

/-- Token with text "hello" (5 bytes), offset 0, span 1. -/
def helloTok : Token := ⟨[104, 101, 108, 108, 111], 0, 1⟩

/-- Token with text "worldwide" (9 bytes), offset 1, span 1. -/
def worldwideTok : Token := ⟨[119, 111, 114, 108, 100, 119, 105, 100, 101], 1, 1⟩

/-- Token with a 10-byte text, offset 0, span 1: oversized for a maximum
token length of 5. -/
def bigTok : Token := ⟨List.replicate 10 97, 0, 1⟩

/-- Token with text "a", offset 0, span 1. -/
def tokUnitA : Token := ⟨[97], 0, 1⟩

/-- Token with text "b", offset 0, span 1. -/
def tokUnitB : Token := ⟨[98], 0, 1⟩

/-- Empty loop accumulator over the empty writer. -/
def accEx : IndexTextAcc := ⟨WriterState.init, [], [], 0, 0⟩

/-- Result of a first index_text call recording one token from a fresh
IndexingPosition. -/
def firstCallRes : IndexTextResult :=
  indexText 100 0 [] WriterState.init [] ⟨0, 0⟩ [tokUnitA]

/-- Result of a second index_text call for the same document and field,
continuing from the first call's IndexingPosition. -/
def secondCallRes : IndexTextResult :=
  indexText 100 0 [] firstCallRes.writer firstCallRes.sink firstCallRes.ipos
    [tokUnitB]

/-- C3: a token whose byte length exceeds the maximum token length is
dropped with no effect: processing a token list is identical to processing
the list with the oversized tokens removed (no subscribe call, no term-map
entry, no sink append, identical positions for the remaining tokens), and
the closure leaves the loop state untouched on such a token. -/
theorem oversized_token_dropped :
    (∀ (maxTokenLen doc : Nat) (path : List Nat) (w : WriterState)
        (sink : List Nat) (ip : IndexingPosition) (tokens : List Token),
      indexText maxTokenLen doc path w sink ip tokens
        = indexText maxTokenLen doc path w sink ip
            (tokens.filter (tokenKept maxTokenLen))) ∧
    (∀ (maxTokenLen doc : Nat) (path : List Nat) (ipStart : Nat)
        (acc : IndexTextAcc) (t : Token),
      t.text.length > maxTokenLen →
      processToken maxTokenLen doc path ipStart acc t = acc) := by
  constructor
  · intro m d path w sink ip tokens
    exact indexText_filter m d path w sink ip tokens
  · intro m d path s acc t h
    simp [processToken, h]

theorem oversized_token_dropped_witness :
    bigTok.text.length > 5 ∧
    processToken 5 0 [] 0 accEx bigTok = accEx ∧
    indexText 5 0 [] WriterState.init [] ⟨0, 0⟩ [helloTok, bigTok]
      = indexText 5 0 [] WriterState.init [] ⟨0, 0⟩ [helloTok] := by
  refine ⟨by decide, oversized_token_dropped.2 5 0 [] 0 accEx bigTok (by decide), ?_⟩
  have h := oversized_token_dropped.1 5 0 [] WriterState.init [] ⟨0, 0⟩
    [helloTok, bigTok]
  rw [h]
  decide

/-- C4: with every token of a non-empty sequence recorded, each token's
start position is the call-initial end_position plus the token's offset and
its end position adds the span length; afterwards end_position is the last
token's end position plus POSITION_GAP and num_tokens grows by the number
of tokens recorded. -/
theorem token_positions_from_indexing_position (maxTokenLen doc : Nat)
    (path : List Nat) (w : WriterState) (sink : List Nat)
    (ip : IndexingPosition) (tokens : List Token)
    (hkept : ∀ t ∈ tokens, tokenKept maxTokenLen t = true)
    (hne : tokens ≠ []) :
    (indexText maxTokenLen doc path w sink ip tokens).trace
        = tokens.map (tokenSpan ip.end_position) ∧
    (indexText maxTokenLen doc path w sink ip tokens).ipos.end_position
        = (tokenSpan ip.end_position (tokens.getLast hne)).2 + POSITION_GAP ∧
    (indexText maxTokenLen doc path w sink ip tokens).ipos.num_tokens
        = ip.num_tokens + tokens.length := by
  obtain ⟨h1, h2, h3, _⟩ := foldl_processToken_kept maxTokenLen doc path
    ip.end_position tokens ⟨w, sink, [], 0, 0⟩ hkept
  refine ⟨?_, ?_, ?_⟩
  · simpa [indexText] using h1
  · show (List.foldl (processToken maxTokenLen doc path ip.end_position)
      ⟨w, sink, [], 0, 0⟩ tokens).end_position + POSITION_GAP = _
    rw [h3]
    rw [getLastD_map_ne_nil (fun t => (tokenSpan ip.end_position t).2) tokens hne]
  · simpa [indexText] using h2

theorem token_positions_from_indexing_position_witness :
    (∀ t ∈ [helloTok, tokUnitB], tokenKept 100 t = true) ∧
    ((indexText 100 0 [] WriterState.init [] ⟨0, 3⟩ [helloTok, tokUnitB]).trace
        = [helloTok, tokUnitB].map (tokenSpan 3) ∧
      (indexText 100 0 [] WriterState.init [] ⟨0, 3⟩
          [helloTok, tokUnitB]).ipos.end_position
        = (tokenSpan 3 ([helloTok, tokUnitB].getLast (by decide))).2 + POSITION_GAP ∧
      (indexText 100 0 [] WriterState.init [] ⟨0, 3⟩
          [helloTok, tokUnitB]).ipos.num_tokens = 0 + 2) :=
  ⟨by decide,
    token_positions_from_indexing_position 100 0 [] WriterState.init [] ⟨0, 3⟩
      [helloTok, tokUnitB] (by decide) (by decide)⟩

/-- C10: when an index_text call records no token (empty sequence or all
tokens oversized), the IndexingPosition end_position is set to
POSITION_GAP = 1 regardless of its previous value. -/
theorem empty_token_sequence_resets_end_position (maxTokenLen doc : Nat)
    (path : List Nat) (w : WriterState) (sink : List Nat)
    (ip : IndexingPosition) (tokens : List Token)
    (hnone : tokens.filter (tokenKept maxTokenLen) = []) :
    (indexText maxTokenLen doc path w sink ip tokens).ipos.end_position = 1 := by
  rw [indexText_filter, hnone]
  rfl

theorem empty_token_sequence_resets_end_position_witness :
    [bigTok].filter (tokenKept 5) = [] ∧
    (indexText 5 0 [] WriterState.init [] ⟨7, 100⟩ [bigTok]).ipos.end_position = 1 :=
  ⟨by decide,
    empty_token_sequence_resets_end_position 5 0 [] WriterState.init [] ⟨7, 100⟩
      [bigTok] (by decide)⟩

/-- C7: total_num_tokens counts exactly the subscribe calls: it equals the
call count after any sequence of subscribe calls, index_text adds only the
number of recorded (non-oversized) tokens, and with maximum token length 5
the token pair hello/worldwide adds 1, not 2. -/
theorem total_num_tokens_counts_subscribes :
    (∀ calls : List SubCall,
      (processCalls WriterState.init calls).total_num_tokens = calls.length) ∧
    (∀ (maxTokenLen doc : Nat) (path : List Nat) (w : WriterState)
        (sink : List Nat) (ip : IndexingPosition) (tokens : List Token),
      (indexText maxTokenLen doc path w sink ip tokens).writer.total_num_tokens
        = w.total_num_tokens + (tokens.filter (tokenKept maxTokenLen)).length) ∧
    (∀ (w : WriterState) (ip : IndexingPosition),
      (indexText 5 0 [] w [] ip [helloTok, worldwideTok]).writer.total_num_tokens
        = w.total_num_tokens + 1) := by
  have hB : ∀ (maxTokenLen doc : Nat) (path : List Nat) (w : WriterState)
      (sink : List Nat) (ip : IndexingPosition) (tokens : List Token),
      (indexText maxTokenLen doc path w sink ip tokens).writer.total_num_tokens
        = w.total_num_tokens + (tokens.filter (tokenKept maxTokenLen)).length := by
    intro m d path w sink ip tokens
    rw [indexText_filter]
    obtain ⟨_, _, _, h4⟩ := foldl_processToken_kept m d path ip.end_position
      (tokens.filter (tokenKept m)) ⟨w, sink, [], 0, 0⟩
      (fun t ht => (List.mem_filter.mp ht).2)
    simpa [indexText] using h4
  refine ⟨?_, hB, ?_⟩
  · intro calls
    simpa [WriterState.init] using processCalls_total calls WriterState.init
  · intro w ip
    have h := hB 5 0 [] w [] ip [helloTok, worldwideTok]
    simpa [helloTok, worldwideTok, tokenKept, List.filter] using h

/-- C5 counterexample: two consecutive index_text calls for the same
document and field, each recording one token; the position produced by the
second call equals the first call's resulting end_position, hence is not
strictly greater than that end_position plus 1. -/
theorem second_call_positions_counterexample :
    firstCallRes.trace ≠ [] ∧ secondCallRes.trace ≠ [] ∧
    ¬ (∀ p ∈ secondCallRes.trace, firstCallRes.ipos.end_position + 1 < p.1) := by
  decide

/-- C5 amended: every position number produced by the second of two
consecutive index_text calls for the same document and field (each
recording at least one token) is at least the first call's resulting
end_position — equivalently, strictly greater than the first call's last
recorded token's end position. -/
theorem second_call_positions_ge_end_position (maxTokenLen doc : Nat)
    (path : List Nat) (w : WriterState) (sink : List Nat)
    (ip : IndexingPosition) (tokens1 tokens2 : List Token)
    (h1 : tokens1.filter (tokenKept maxTokenLen) ≠ [])
    (h2 : tokens2.filter (tokenKept maxTokenLen) ≠ []) :
    ∀ p ∈ (indexText maxTokenLen doc path
        (indexText maxTokenLen doc path w sink ip tokens1).writer
        (indexText maxTokenLen doc path w sink ip tokens1).sink
        (indexText maxTokenLen doc path w sink ip tokens1).ipos tokens2).trace,
      (indexText maxTokenLen doc path w sink ip tokens1).ipos.end_position ≤ p.1 := by
  intro p hp
  set res1 := indexText maxTokenLen doc path w sink ip tokens1 with hres1
  rw [indexText_filter] at hp
  obtain ⟨htr, _, _, _⟩ := foldl_processToken_kept maxTokenLen doc path
    res1.ipos.end_position (tokens2.filter (tokenKept maxTokenLen))
    ⟨res1.writer, res1.sink, [], 0, 0⟩ (fun t ht => (List.mem_filter.mp ht).2)
  have hp2 : p ∈ (tokens2.filter (tokenKept maxTokenLen)).map
      (tokenSpan res1.ipos.end_position) := by
    have : (indexText maxTokenLen doc path res1.writer res1.sink res1.ipos
        (tokens2.filter (tokenKept maxTokenLen))).trace
        = (tokens2.filter (tokenKept maxTokenLen)).map
            (tokenSpan res1.ipos.end_position) := by
      simpa [indexText] using htr
    rwa [this] at hp
  obtain ⟨t, _, hteq⟩ := List.mem_map.mp hp2
  rw [← hteq]
  exact Nat.le_add_right _ _

theorem second_call_positions_ge_end_position_witness :
    [tokUnitA].filter (tokenKept 100) ≠ [] ∧
    [tokUnitB].filter (tokenKept 100) ≠ [] ∧
    ∀ p ∈ secondCallRes.trace, firstCallRes.ipos.end_position ≤ p.1 := by
  refine ⟨by decide, by decide, ?_⟩
  have h := second_call_positions_ge_end_position 100 0 [] WriterState.init []
    ⟨0, 0⟩ [tokUnitA] [tokUnitB] (by decide) (by decide)
  exact h

/-! Helper lemmas relating subscribe sequences to the per-term recorder. -/

/-- Evolution of one term's recorder under one subscribe call that reaches
it: the recorder update closure wrapped in some. -/
def recStep (o : Option Recorder) (c : SubCall) : Option Recorder :=
  some (updateRecorder c.doc c.pos o)

theorem lookupRec_mutateOrCreate (key t : List Nat) (doc pos : Nat) :
    ∀ m : List (List Nat × Recorder),
      lookupRec t (mutateOrCreate key doc pos m).2
        = if key = t then some (updateRecorder doc pos (lookupRec t m))
          else lookupRec t m := by
  intro m
  induction m with
  | nil =>
    by_cases h : key = t <;> simp [mutateOrCreate, lookupRec, h]
  | cons p rest ih =>
    obtain ⟨k, r⟩ := p
    by_cases hk : k = key
    · subst hk
      by_cases ht : k = t
      · subst ht
        simp [mutateOrCreate, lookupRec]
      · have ht2 : ¬ t = k := fun h => ht h.symm
        simp [mutateOrCreate, lookupRec, ht, ht2]
    · by_cases ht : k = t
      · subst ht
        have hk2 : ¬ key = k := fun h => hk h.symm
        simp [mutateOrCreate, lookupRec, hk, hk2]
      · simp [mutateOrCreate, lookupRec, hk, ht, ih]

theorem lookupRec_processCalls (t : List Nat) :
    ∀ (calls : List SubCall) (w : WriterState),
      lookupRec t (processCalls w calls).term_map
        = (calls.filter (fun c => decide (c.term = t))).foldl recStep
            (lookupRec t w.term_map) := by
  intro calls
  induction calls with
  | nil => intro w; rfl
  | cons c cs ih =>
    intro w
    have hstep : processCalls w (c :: cs)
        = processCalls (subscribe w c.doc c.pos c.term).2 cs := rfl
    rw [hstep, ih]
    have hm : lookupRec t (subscribe w c.doc c.pos c.term).2.term_map
        = if c.term = t then some (updateRecorder c.doc c.pos (lookupRec t w.term_map))
          else lookupRec t w.term_map := by
      simpa [subscribe] using lookupRec_mutateOrCreate c.term t c.doc c.pos w.term_map
    by_cases hct : c.term = t
    · rw [hm, if_pos hct, List.filter_cons]
      rw [decide_eq_true hct]
      simp only [if_true, List.foldl_cons]
      rfl
    · rw [hm, if_neg hct, List.filter_cons]
      simp [hct]

/-- Invariant of one term's recorder under a non-empty, non-decreasing
sequence of subscribe calls: the cursor holds the largest document seen and
the finalized entries, once the open document is closed, number exactly the
distinct documents. -/
theorem recorder_fold_nondecr :
    ∀ l : List SubCall, l ≠ [] →
      List.Pairwise (· ≤ ·) (l.map SubCall.doc) →
      ∃ r d, l.foldl recStep none = some r ∧
        r.doc_cursor = some d ∧
        d ∈ l.map SubCall.doc ∧
        (∀ x ∈ l.map SubCall.doc, x ≤ d) ∧
        r.close_doc.finalized.length = (l.map SubCall.doc).toFinset.card := by
  intro l
  induction l using List.reverseRecOn with
  | nil => intro h; exact absurd rfl h
  | append_singleton xs c ih =>
    intro _ hpw
    rw [List.map_append] at hpw
    rw [List.pairwise_append] at hpw
    obtain ⟨hpxs, _, hle⟩ := hpw
    have hle2 : ∀ x ∈ xs.map SubCall.doc, x ≤ c.doc := by
      intro x hx
      exact hle x hx c.doc (by simp)
    cases xs with
    | nil =>
      refine ⟨⟨some c.doc, [c.pos], []⟩, c.doc, ?_, rfl, by simp, by simp, ?_⟩
      · simp [recStep, updateRecorder, Recorder.init, Recorder.new_doc,
          Recorder.record_position]
      · simp [Recorder.close_doc]
    | cons x0 xs0 =>
      obtain ⟨r, d, hr, hcur, hdmem, hdub, hlen⟩ :=
        ih (by simp) hpxs
      rw [List.foldl_append, hr]
      by_cases hcd : c.doc = d
      · -- same document: only record_position
        refine ⟨r.record_position c.pos, d, ?_, ?_, ?_, ?_, ?_⟩
        · simp [recStep, updateRecorder, Recorder.current_doc, hcur, hcd,
            Recorder.record_position]
        · simp [Recorder.record_position, hcur]
        · rw [List.map_append]
          exact List.mem_append.mpr (Or.inl hdmem)
        · intro x hx
          rw [List.map_append] at hx
          rcases List.mem_append.mp hx with hx | hx
          · exact hdub x hx
          · simp at hx
            rw [hx, hcd]
        · have h1 : (r.record_position c.pos).close_doc.finalized.length
              = r.finalized.length + 1 := by
            simp [Recorder.record_position, Recorder.close_doc, hcur]
          have h2 : r.close_doc.finalized.length = r.finalized.length + 1 := by
            simp [Recorder.close_doc, hcur]
          rw [h1, ← h2, hlen]
          rw [List.map_append, List.toFinset_append]
          have hmem2 : c.doc ∈ ((x0 :: xs0).map SubCall.doc).toFinset := by
            rw [List.mem_toFinset, hcd]
            exact hdmem
          have hsing : ([c].map SubCall.doc).toFinset = ({c.doc} : Finset Nat) := by
            simp
          have hun : ((x0 :: xs0).map SubCall.doc).toFinset
                ∪ ([c].map SubCall.doc).toFinset
              = ((x0 :: xs0).map SubCall.doc).toFinset := by
            rw [hsing, Finset.union_comm, ← Finset.insert_eq,
              Finset.insert_eq_self.mpr hmem2]
          rw [hun]
      · -- new document: close_doc then new_doc then record_position
        have hclose : r.close_doc = ⟨none, [], r.finalized ++ [(d, r.current_positions)]⟩ := by
          simp [Recorder.close_doc, hcur]
        have hnotmem : c.doc ∉ (x0 :: xs0).map SubCall.doc := by
          intro hmem
          exact hcd (Nat.le_antisymm (hdub c.doc hmem) (hle d hdmem c.doc (by simp)))
        have hcd2 : d ≠ c.doc := fun h => hcd h.symm
        refine ⟨⟨some c.doc, [c.pos], r.finalized ++ [(d, r.current_positions)]⟩,
          c.doc, ?_, rfl, by simp, ?_, ?_⟩
        · simp [recStep, updateRecorder, Recorder.current_doc, hcur, hcd2,
            hclose, Recorder.new_doc, Recorder.record_position]
        · intro x hx
          rw [List.map_append] at hx
          rcases List.mem_append.mp hx with hx | hx
          · exact hle x hx c.doc (by simp)
          · simp at hx
            rw [hx]
        · have h1 : (⟨some c.doc, [c.pos],
              r.finalized ++ [(d, r.current_positions)]⟩ : Recorder).close_doc.finalized.length
              = r.finalized.length + 2 := by
            simp [Recorder.close_doc]
          have h2 : r.close_doc.finalized.length = r.finalized.length + 1 := by
            simp [Recorder.close_doc, hcur]
          rw [h1]
          rw [h2] at hlen
          rw [List.map_append, List.toFinset_append]
          have hsing : ((([c]).map SubCall.doc).toFinset : Finset Nat) = {c.doc} := by
            simp
          rw [hsing, Finset.union_comm, ← Finset.insert_eq,
            Finset.card_insert_of_not_mem (by simpa [List.mem_toFinset] using hnotmem),
            ← hlen]

/-- C2: for a sequence of subscribe calls with non-decreasing document ids,
the document frequency reported at serialization time for each subscribed
term equals the number of distinct document ids passed for that term. -/
theorem doc_freq_eq_distinct_docs (calls : List SubCall) (t : List Nat)
    (hsorted : List.Pairwise (· ≤ ·) (calls.map SubCall.doc))
    (hsub : calls.filter (fun c => decide (c.term = t)) ≠ []) :
    (lookupRec t (processCalls WriterState.init calls).term_map).map
        Recorder.docFreqAtSerialize
      = some (((calls.filter (fun c => decide (c.term = t))).map
          SubCall.doc).toFinset.card) := by
  rw [lookupRec_processCalls]
  have hinit : lookupRec t WriterState.init.term_map = none := rfl
  rw [hinit]
  have hpw : List.Pairwise (· ≤ ·)
      ((calls.filter (fun c => decide (c.term = t))).map SubCall.doc) :=
    List.Pairwise.sublist
      ((List.filter_sublist calls).map SubCall.doc) hsorted
  obtain ⟨r, d, hr, _, _, _, hlen⟩ := recorder_fold_nondecr
    (calls.filter (fun c => decide (c.term = t))) hsub hpw
  rw [hr]
  simp [Recorder.docFreqAtSerialize, Recorder.term_doc_freq, hlen]

/-- Calls with docs 1,1,3,3,7 over terms "a","a","a","b","a". -/
def c2Calls : List SubCall :=
  [⟨1, 0, [97]⟩, ⟨1, 1, [97]⟩, ⟨3, 0, [97]⟩, ⟨3, 1, [98]⟩, ⟨7, 0, [97]⟩]

theorem doc_freq_eq_distinct_docs_witness :
    List.Pairwise (· ≤ ·) (c2Calls.map SubCall.doc) ∧
    c2Calls.filter (fun c => decide (c.term = [97])) ≠ [] ∧
    (lookupRec [97] (processCalls WriterState.init c2Calls).term_map).map
        Recorder.docFreqAtSerialize
      = some (((c2Calls.filter (fun c => decide (c.term = [97]))).map
          SubCall.doc).toFinset.card) :=
  ⟨by decide, by decide,
    doc_freq_eq_distinct_docs c2Calls [97] (by decide) (by decide)⟩

/-! Helper lemmas about the sorted term_offsets and the ordinal mapping. -/

theorem termOffsets_map_id (w : WriterState) :
    (termOffsets w).map TermOffset.id = List.range w.term_map.length := by
  unfold termOffsets
  rw [List.map_map]
  have h : (TermOffset.id ∘ fun p : Nat × (List Nat × Recorder) =>
      (⟨p.2.1, p.2.2, p.1⟩ : TermOffset)) = Prod.fst := rfl
  rw [h, List.enum_map_fst]

theorem termOffsets_map_term (w : WriterState) :
    (termOffsets w).map TermOffset.term = w.term_map.map Prod.fst := by
  unfold termOffsets
  rw [List.map_map]
  have h : (TermOffset.term ∘ fun p : Nat × (List Nat × Recorder) =>
      (⟨p.2.1, p.2.2, p.1⟩ : TermOffset)) = Prod.fst ∘ Prod.snd := rfl
  rw [h, ← List.map_map, List.enum_map_snd]

theorem sortedOffsets_perm (w : WriterState) :
    (sortedOffsets w).Perm (termOffsets w) :=
  List.perm_insertionSort offsetLe (termOffsets w)

theorem sortedOffsets_length (w : WriterState) :
    (sortedOffsets w).length = w.term_map.length := by
  rw [(sortedOffsets_perm w).length_eq]
  simp [termOffsets]

theorem sortedOffsets_pairwise_le (w : WriterState) :
    List.Pairwise offsetLe (sortedOffsets w) :=
  List.sorted_insertionSort offsetLe (termOffsets w)

theorem sortedOffsets_terms_nodup (w : WriterState)
    (hkeys : (w.term_map.map Prod.fst).Nodup) :
    ((sortedOffsets w).map TermOffset.term).Nodup := by
  rw [((sortedOffsets_perm w).map TermOffset.term).nodup_iff,
    termOffsets_map_term]
  exact hkeys

theorem sortedOffsets_terms_pairwise_lt (w : WriterState)
    (hkeys : (w.term_map.map Prod.fst).Nodup) :
    List.Pairwise (fun a b => bytesLt a b = true)
      ((sortedOffsets w).map TermOffset.term) := by
  have hle : List.Pairwise
      (fun a b : TermOffset => bytesLe a.term b.term = true) (sortedOffsets w) :=
    (sortedOffsets_pairwise_le w).imp (fun h => h)
  have hle2 : List.Pairwise (fun a b => bytesLe a b = true)
      ((sortedOffsets w).map TermOffset.term) := List.pairwise_map.mpr hle
  have hnd : List.Pairwise (fun a b : List Nat => a ≠ b)
      ((sortedOffsets w).map TermOffset.term) := sortedOffsets_terms_nodup w hkeys
  exact (hle2.and hnd).imp (fun h => bytesLt_iff_le_ne.mpr ⟨h.1, h.2⟩)

/-- C1: for any term map with unique keys, the mapping built by
serialize_postings for a string-like field is a bijection from the
insertion-order UnorderedTermIds onto the dense ordinal range: its keys are
a permutation of the id range, its values run through all ordinals in
order, every pair sends an id to the sorted position holding that id's
entry, and the sorted key sequence is strictly ascending byte-lexicographic. -/
theorem unordered_to_ordinal_bijection (w : WriterState)
    (hkeys : (w.term_map.map Prod.fst).Nodup) :
    ((mappingList w).map Prod.fst).Perm (List.range w.term_map.length) ∧
    (mappingList w).map Prod.snd = List.range w.term_map.length ∧
    (∀ p ∈ mappingList w, ∃ k r,
      (sortedOffsets w)[p.2]? = some ⟨k, r, p.1⟩ ∧
      w.term_map[p.1]? = some (k, r)) ∧
    List.Pairwise (fun a b => bytesLt a b = true)
      ((sortedOffsets w).map TermOffset.term) := by
  have hm1 : (mappingList w).map Prod.fst = (sortedOffsets w).map TermOffset.id := by
    unfold mappingList
    rw [List.map_map]
    have h : (Prod.fst ∘ fun p : Nat × TermOffset => (p.2.id, p.1))
        = TermOffset.id ∘ Prod.snd := rfl
    rw [h, ← List.map_map, List.enum_map_snd]
  have hm2 : (mappingList w).map Prod.snd = List.range (sortedOffsets w).length := by
    unfold mappingList
    rw [List.map_map]
    have h : (Prod.snd ∘ fun p : Nat × TermOffset => (p.2.id, p.1)) = Prod.fst := rfl
    rw [h, List.enum_map_fst]
  refine ⟨?_, ?_, ?_, sortedOffsets_terms_pairwise_lt w hkeys⟩
  · rw [hm1, ← termOffsets_map_id w]
    exact (sortedOffsets_perm w).map TermOffset.id
  · rw [hm2, sortedOffsets_length]
  · intro p hp
    unfold mappingList at hp
    obtain ⟨q, hq, heq⟩ := List.mem_map.mp hp
    have hp1 : p.1 = q.2.id := by rw [← heq]
    have hp2 : p.2 = q.1 := by rw [← heq]
    have hget : (sortedOffsets w)[q.1]? = some q.2 :=
      List.mem_enum_iff_getElem?.mp hq
    have hqmem : q.2 ∈ sortedOffsets w := by
      have := List.getElem?_eq_some.mp hget
      obtain ⟨hlt, hgeteq⟩ := this
      rw [← hgeteq]
      exact List.getElem_mem hlt
    have hqmem2 : q.2 ∈ termOffsets w := (sortedOffsets_perm w).mem_iff.mp hqmem
    unfold termOffsets at hqmem2
    obtain ⟨pr, hpr, hpreq⟩ := List.mem_map.mp hqmem2
    have hprget : w.term_map[pr.1]? = some pr.2 :=
      List.mem_enum_iff_getElem?.mp hpr
    refine ⟨q.2.term, q.2.recorder, ?_, ?_⟩
    · rw [hp2, hp1, hget]
    · have hfields : pr.1 = q.2.id ∧ pr.2.1 = q.2.term ∧ pr.2.2 = q.2.recorder := by
        have h1 : (⟨pr.2.1, pr.2.2, pr.1⟩ : TermOffset).term = q.2.term := by
          rw [hpreq]
        have h2 : (⟨pr.2.1, pr.2.2, pr.1⟩ : TermOffset).recorder = q.2.recorder := by
          rw [hpreq]
        have h3 : (⟨pr.2.1, pr.2.2, pr.1⟩ : TermOffset).id = q.2.id := by
          rw [hpreq]
        exact ⟨h3, h1, h2⟩
      rw [hp1, ← hfields.1, hprget]
      have : pr.2 = (q.2.term, q.2.recorder) := by
        obtain ⟨-, h1, h2⟩ := hfields
        exact Prod.ext h1 h2
      rw [this]

/-- Writer holding terms dog, cat, ant inserted in that order, all for
document 0. -/
def dogCatAntW : WriterState :=
  processCalls WriterState.init
    [⟨0, 0, [100, 111, 103]⟩, ⟨0, 1, [99, 97, 116]⟩, ⟨0, 2, [97, 110, 116]⟩]

theorem unordered_to_ordinal_bijection_witness :
    (dogCatAntW.term_map.map Prod.fst).Nodup ∧
    (((mappingList dogCatAntW).map Prod.fst).Perm
        (List.range dogCatAntW.term_map.length) ∧
      (mappingList dogCatAntW).map Prod.snd
        = List.range dogCatAntW.term_map.length ∧
      (∀ p ∈ mappingList dogCatAntW, ∃ k r,
        (sortedOffsets dogCatAntW)[p.2]? = some ⟨k, r, p.1⟩ ∧
        dogCatAntW.term_map[p.1]? = some (k, r)) ∧
      List.Pairwise (fun a b => bytesLt a b = true)
        ((sortedOffsets dogCatAntW).map TermOffset.term)) ∧
    mappingList dogCatAntW = [(2, 0), (1, 1), (0, 2)] :=
  ⟨by decide, unordered_to_ordinal_bijection dogCatAntW (by decide), by decide⟩

/-- Term key carried by a new_term sink event, as extracted by the event
filter. -/
def eventTermKey : SinkEvent → Option (List Nat)
  | SinkEvent.newTerm k _ => some k
  | _ => none

theorem filterMap_termEvents (dmap : Option (Nat → Nat)) (l : List TermOffset) :
    ((l.map (termEvents dmap)).flatten).filterMap eventTermKey
      = l.map TermOffset.term := by
  induction l with
  | nil => rfl
  | cons x xs ih =>
    simp only [List.map_cons, List.flatten_cons, List.filterMap_append, ih]
    simp [termEvents, eventTermKey]

/-- C6: the terms a field's flush hands to the sink (the new_term events of
its event stream) appear in strictly ascending byte-lexicographic key
order, provided the term map's keys are unique. -/
theorem serialize_terms_strictly_ascending (dmap : Option (Nat → Nat))
    (field : Nat) (w : WriterState)
    (hkeys : (w.term_map.map Prod.fst).Nodup) :
    List.Pairwise (fun a b => bytesLt a b = true)
      ((fieldEvents dmap field w).filterMap eventTermKey) := by
  have h : (fieldEvents dmap field w).filterMap eventTermKey
      = (sortedOffsets w).map TermOffset.term := by
    unfold fieldEvents
    simp only [List.filterMap_cons, List.filterMap_append, filterMap_termEvents]
    simp [eventTermKey]
  rw [h]
  exact sortedOffsets_terms_pairwise_lt w hkeys

theorem serialize_terms_strictly_ascending_witness :
    (dogCatAntW.term_map.map Prod.fst).Nodup ∧
    List.Pairwise (fun a b => bytesLt a b = true)
      ((fieldEvents none 0 dogCatAntW).filterMap eventTermKey) :=
  ⟨by decide, serialize_terms_strictly_ascending none 0 dogCatAntW (by decide)⟩

/-! Helper lemmas for the serialize_postings field loop. -/

/-- String-like field types, the arm of the serialize_postings match that
populates the mapping (postings_writer.rs line 47). -/
def isStringLike : FieldType → Bool
  | FieldType.Str | FieldType.Facet => true
  | _ => false

theorem mappingAction_eq (f : FieldInfo) (maps : List (Nat × List (Nat × Nat))) :
    mappingAction f maps
      = if isStringLike f.ftype then maps ++ [(f.field, mappingList f.writer)]
        else maps := by
  cases hft : f.ftype <;> simp [mappingAction, isStringLike, hft]

theorem serializeFieldsLoop_some (fails : SinkOracle) (dmap : Option (Nat → Nat)) :
    ∀ (fields : List FieldInfo) (tr : List SinkEvent)
      (maps : List (Nat × List (Nat × Nat))) (tr2 maps2),
      serializeFieldsLoop fails dmap fields tr maps = (tr2, some maps2) →
      maps2 = maps ++ (fields.filter (fun f => isStringLike f.ftype)).map
        (fun f => (f.field, mappingList f.writer)) := by
  intro fields
  induction fields with
  | nil =>
    intro tr maps tr2 maps2 h
    simp [serializeFieldsLoop] at h
    simp [h.2.symm]
  | cons f fs ih =>
    intro tr maps tr2 maps2 h
    rw [serializeFieldsLoop] at h
    by_cases hb : (emitEvents fails (fieldEvents dmap f.field f.writer) tr).2 = true
    · rw [if_pos hb] at h
      have hrec := ih _ _ _ _ h
      rw [hrec, mappingAction_eq, List.filter_cons]
      by_cases hsl : isStringLike f.ftype = true
      · rw [if_pos hsl, hsl]
        simp [List.append_assoc]
      · rw [Bool.not_eq_true] at hsl
        rw [hsl]
        simp
    · rw [if_neg hb] at h
      exact absurd (congrArg Prod.snd h) (by simp)

theorem alookup_eq_none_iff {α : Type} (k : Nat) :
    ∀ l : List (Nat × α), alookup k l = none ↔ ∀ p ∈ l, p.1 ≠ k := by
  intro l
  induction l with
  | nil => simp [alookup]
  | cons p rest ih =>
    by_cases hp : p.1 = k
    · simp [alookup, hp]
    · simp [alookup, hp, ih]

/-- Lookup of a string-like field's entry in the mapping association list
built from a field sequence with unique field identifiers. -/
theorem alookup_filtered_some :
    ∀ (fields : List FieldInfo) (f : FieldInfo),
      (fields.map FieldInfo.field).Nodup → f ∈ fields →
      isStringLike f.ftype = true →
      alookup f.field ((fields.filter (fun g => isStringLike g.ftype)).map
          (fun g => (g.field, mappingList g.writer)))
        = some (mappingList f.writer) := by
  intro fields
  induction fields with
  | nil => intro f _ hf; exact absurd hf (List.not_mem_nil f)
  | cons g gs ih =>
    intro f hnd hf hsl
    rw [List.map_cons, List.nodup_cons] at hnd
    obtain ⟨hgnot, hndgs⟩ := hnd
    rcases List.mem_cons.mp hf with hfe | hfm
    · subst hfe
      rw [List.filter_cons, if_pos (by simp [hsl])]
      simp [alookup]
    · have hne : g.field ≠ f.field := by
        intro hcontra
        exact hgnot (hcontra ▸ List.mem_map_of_mem FieldInfo.field hfm)
      rw [List.filter_cons]
      by_cases hgsl : isStringLike g.ftype = true
      · rw [if_pos (by simp [hgsl])]
        simp only [List.map_cons]
        rw [alookup]
        rw [if_neg hne]
        exact ih f hndgs hfm hsl
      · rw [Bool.not_eq_true] at hgsl
        rw [if_neg (by simp [hgsl])]
        exact ih f hndgs hfm hsl

theorem alookup_filtered_none :
    ∀ (fields : List FieldInfo) (f : FieldInfo),
      (fields.map FieldInfo.field).Nodup → f ∈ fields →
      isStringLike f.ftype = false →
      alookup f.field ((fields.filter (fun g => isStringLike g.ftype)).map
          (fun g => (g.field, mappingList g.writer)))
        = none := by
  intro fields f hnd hf hsl
  rw [alookup_eq_none_iff]
  intro p hp
  obtain ⟨g, hg, hgeq⟩ := List.mem_map.mp hp
  obtain ⟨hgmem, hgsl⟩ := List.mem_filter.mp hg
  intro hcontra
  have hfg : g.field = f.field := by rw [← hgeq] at hcontra; exact hcontra
  have hgf : g = f :=
    List.inj_on_of_nodup_map hnd hgmem hf hfg
  rw [hgf] at hgsl
  rw [hsl] at hgsl
  exact Bool.false_ne_true hgsl

/-- C8: on a successful serialize_postings run over fields with distinct
identifiers, the returned mapping has an entry exactly for each string-like
(text or facet) field — that field's insertion-to-ordinal mapping — and no
entry for numeric, date, bytes or structured-object fields. -/
theorem mapping_exactly_for_string_like (fails : SinkOracle)
    (dmap : Option (Nat → Nat)) (fields : List FieldInfo)
    (maps : List (Nat × List (Nat × Nat)))
    (hids : (fields.map FieldInfo.field).Nodup)
    (hok : (serializePostings fails dmap fields).2 = some maps) :
    ∀ f ∈ fields,
      (isStringLike f.ftype = true →
        alookup f.field maps = some (mappingList f.writer)) ∧
      (isStringLike f.ftype = false → alookup f.field maps = none) := by
  intro f hf
  have hres : serializePostings fails dmap fields
      = ((serializePostings fails dmap fields).1, some maps) := by
    rw [← hok]
  have hmaps := serializeFieldsLoop_some fails dmap fields [] [] _ _ hres
  rw [List.nil_append] at hmaps
  constructor
  · intro hsl
    rw [hmaps]
    exact alookup_filtered_some fields f hids hf hsl
  · intro hsl
    rw [hmaps]
    exact alookup_filtered_none fields f hids hf hsl

/-- Schema with a text field 0 and a numeric field 1, both holding the
dog/cat/ant writer. -/
def exFields : List FieldInfo :=
  [⟨0, FieldType.Str, dogCatAntW⟩, ⟨1, FieldType.U64, dogCatAntW⟩]

/-- Sink oracle that never fails. -/
def noFailOracle : SinkOracle := fun _ _ => false

theorem mapping_exactly_for_string_like_witness :
    (exFields.map FieldInfo.field).Nodup ∧
    (serializePostings noFailOracle none exFields).2
      = some [(0, mappingList dogCatAntW)] ∧
    ∀ f ∈ exFields,
      (isStringLike f.ftype = true →
        alookup f.field [(0, mappingList dogCatAntW)]
          = some (mappingList f.writer)) ∧
      (isStringLike f.ftype = false →
        alookup f.field [(0, mappingList dogCatAntW)] = none) :=
  ⟨by decide, by decide,
    mapping_exactly_for_string_like noFailOracle none exFields
      [(0, mappingList dogCatAntW)] (by decide) (by decide)⟩

theorem emitEvents_append (fails : SinkOracle) :
    ∀ (a b : List SinkEvent) (tr : List SinkEvent),
      emitEvents fails (a ++ b) tr
        = if (emitEvents fails a tr).2
          then emitEvents fails b (emitEvents fails a tr).1
          else emitEvents fails a tr := by
  intro a
  induction a with
  | nil => intro b tr; simp [emitEvents]
  | cons e es ih =>
    intro b tr
    by_cases hf : fails tr e
    · simp [emitEvents, hf]
    · simp only [List.cons_append, emitEvents, hf, Bool.false_eq_true, if_false]
      exact ih b (tr ++ [e])

/-- Event stream of a whole serialize_postings run: the concatenation of
every field's events in schema order. -/
def allFieldEvents (dmap : Option (Nat → Nat)) (fields : List FieldInfo) :
    List SinkEvent :=
  (fields.map (fun f => fieldEvents dmap f.field f.writer)).flatten

theorem serializeFieldsLoop_trace (fails : SinkOracle) (dmap : Option (Nat → Nat)) :
    ∀ (fields : List FieldInfo) (tr : List SinkEvent)
      (maps : List (Nat × List (Nat × Nat))),
      (serializeFieldsLoop fails dmap fields tr maps).1
        = (emitEvents fails (allFieldEvents dmap fields) tr).1 ∧
      ((serializeFieldsLoop fails dmap fields tr maps).2.isSome
        ↔ (emitEvents fails (allFieldEvents dmap fields) tr).2 = true) := by
  intro fields
  induction fields with
  | nil =>
    intro tr maps
    simp [serializeFieldsLoop, allFieldEvents, emitEvents]
  | cons f fs ih =>
    intro tr maps
    have hflat : allFieldEvents dmap (f :: fs)
        = fieldEvents dmap f.field f.writer ++ allFieldEvents dmap fs := by
      simp [allFieldEvents]
    rw [hflat, emitEvents_append fails]
    rw [serializeFieldsLoop]
    by_cases hb : (emitEvents fails (fieldEvents dmap f.field f.writer) tr).2 = true
    · rw [if_pos hb, if_pos hb]
      exact ih _ _
    · rw [if_neg hb, if_neg hb]
      simp [Bool.not_eq_true] at hb
      simp [hb]

theorem emitEvents_take (fails : SinkOracle) :
    ∀ (l : List SinkEvent) (tr : List SinkEvent),
      ∃ n ≤ l.length,
        (emitEvents fails l tr).1 = tr ++ l.take n ∧
        ((emitEvents fails l tr).2 = true → n = l.length) ∧
        ((emitEvents fails l tr).2 = false →
          ∃ e rest, l.drop n = e :: rest ∧ fails (tr ++ l.take n) e = true) := by
  intro l
  induction l with
  | nil =>
    intro tr
    refine ⟨0, Nat.le_refl 0, by simp [emitEvents], fun _ => rfl, fun h => ?_⟩
    simp [emitEvents] at h
  | cons e es ih =>
    intro tr
    by_cases hf : fails tr e
    · refine ⟨0, Nat.zero_le _, ?_, ?_, ?_⟩
      · simp [emitEvents, hf]
      · intro h
        simp [emitEvents, hf] at h
      · intro _
        exact ⟨e, es, by simp, by simpa using hf⟩
    · obtain ⟨n, hn, h1, h2, h3⟩ := ih (tr ++ [e])
      have hstep : emitEvents fails (e :: es) tr = emitEvents fails es (tr ++ [e]) := by
        simp [emitEvents, hf]
      refine ⟨n + 1, Nat.succ_le_succ hn, ?_, ?_, ?_⟩
      · rw [hstep, h1, List.take_succ_cons, List.append_assoc]
        rfl
      · intro h
        rw [hstep] at h
        rw [h2 h, List.length_cons]
      · intro h
        rw [hstep] at h
        obtain ⟨e2, rest, hd, hfl⟩ := h3 h
        refine ⟨e2, rest, by simpa [List.drop_succ_cons] using hd, ?_⟩
        rw [List.take_succ_cons]
        rw [List.append_assoc, List.singleton_append] at hfl
        exact hfl

/-- C9: the trace serialize_postings writes to the sink is exactly the
prefix of the full per-field event stream up to (and excluding) the first
failing sink operation: a failure aborts the whole call at that operation
— fields after it contribute nothing, fields flushed before it remain in
the trace — and a run with no failure emits the entire stream. -/
theorem sink_failure_aborts_immediately (fails : SinkOracle)
    (dmap : Option (Nat → Nat)) (fields : List FieldInfo) :
    ∃ n ≤ (allFieldEvents dmap fields).length,
      (serializePostings fails dmap fields).1
        = (allFieldEvents dmap fields).take n ∧
      ((serializePostings fails dmap fields).2.isSome →
        n = (allFieldEvents dmap fields).length) ∧
      ((serializePostings fails dmap fields).2 = none →
        ∃ e rest, (allFieldEvents dmap fields).drop n = e :: rest ∧
          fails ((allFieldEvents dmap fields).take n) e = true) := by
  obtain ⟨htr, hok⟩ := serializeFieldsLoop_trace fails dmap fields [] []
  obtain ⟨n, hn, h1, h2, h3⟩ := emitEvents_take fails (allFieldEvents dmap fields) []
  refine ⟨n, hn, ?_, ?_, ?_⟩
  · show (serializeFieldsLoop fails dmap fields [] []).1 = _
    rw [htr, h1, List.nil_append]
  · intro hsome
    exact h2 (hok.mp hsome)
  · intro hnone
    have hfalse : (emitEvents fails (allFieldEvents dmap fields) []).2 = false := by
      have : ¬ (serializeFieldsLoop fails dmap fields [] []).2.isSome := by
        show ¬ (serializePostings fails dmap fields).2.isSome
        rw [hnone]
        simp
      rw [hok] at this
      simpa using this
    obtain ⟨e, rest, hd, hfl⟩ := h3 hfalse
    exact ⟨e, rest, hd, by simpa using hfl⟩

/-- Oracle failing on the third sink operation of a run. -/
def failThirdOracle : SinkOracle := fun tr _ => decide (tr.length = 2)

theorem sink_failure_aborts_immediately_witness :
    ∃ n ≤ (allFieldEvents none exFields).length,
      (serializePostings failThirdOracle none exFields).1
        = (allFieldEvents none exFields).take n ∧
      ((serializePostings failThirdOracle none exFields).2.isSome →
        n = (allFieldEvents none exFields).length) ∧
      ((serializePostings failThirdOracle none exFields).2 = none →
        ∃ e rest, (allFieldEvents none exFields).drop n = e :: rest ∧
          failThirdOracle ((allFieldEvents none exFields).take n) e = true) :=
  sink_failure_aborts_immediately failThirdOracle none exFields

end PostingsWriter
